import Mathlib

/-!
Verification development for the MIDI re-timing and overlap-resolution engine
of `midi_processor.py`.  Python code is shallowly embedded: seconds are exact
rationals (`ℚ`), tick positions and tempo values are integers, Python's
truncating `int()` and banker's `round()` are modelled explicitly, and
Python's stable `sorted` / `list.sort` is modelled by a stable insertion sort.
Dictionary-of-lists grouping (`for k in dict` iterates keys in first-insertion
order, each group in original list order) is modelled by `firstOccKeys` plus
`List.filter`.

The overlap resolver mutates note dictionaries in place after copying them;
to settle the frame claim a second, heap-level embedding is given in which a
note dictionary is a cell of a growing store (`List Note`) addressed by
index, `note.copy()` allocates a fresh cell, and field assignment is
`List.set` at the cell's address.
-/

set_option maxHeartbeats 1000000

/-- Python `int()` applied to an exact rational: truncation toward zero. -/
def pyInt (q : ℚ) : ℤ :=
  if 0 ≤ q then ⌊q⌋ else ⌈q⌉

/-- Python 3 `round()` on an exact rational: round half to even. -/
def pyRound (q : ℚ) : ℤ :=
  let f := ⌊q⌋
  let r := q - (f : ℚ)
  if r < 1/2 then f
  else if 1/2 < r then f + 1
  else if f % 2 = 0 then f else f + 1

/-- Python `round(x, 2)` on an exact rational. -/
def pyRound2 (q : ℚ) : ℚ :=
  (pyRound (q * 100) : ℚ) / 100

/-- Key-comparison relation used to model Python's `sorted(..., key=...)`. -/
def byKey {α β : Type} [LinearOrder β] (key : α → β) : α → α → Prop :=
  fun a b => key a ≤ key b

instance {α β : Type} [LinearOrder β] (key : α → β) : DecidableRel (byKey key) :=
  fun a b => inferInstanceAs (Decidable (key a ≤ key b))

/-- Model of Python's stable `sorted(l, key=key)`: a stable insertion sort
that orders by `key` ascending and keeps the original relative order of
elements with equal keys. -/
def sortByKey {α β : Type} [LinearOrder β] (key : α → β) (l : List α) : List α :=
  l.insertionSort (byKey key)

/-- The keys of a list in order of first occurrence, without duplicates:
the iteration order of a Python dict built by inserting each list element's
key in list order. -/
def firstOccKeys {K : Type} [DecidableEq K] : List K → List K
  | [] => []
  | k :: ks => k :: (firstOccKeys ks).filter (fun x => !decide (x = k))

/-- A completed note interval: the dictionary built by
`_collect_note_positions` / `collect_multitrack_note_positions`
(fields `track`, `original_track`, `note` (= `pitch` here), `channel`,
`velocity`, `start_tick`, `end_tick`, `start_seconds`, `end_seconds`,
`duration_ticks`, `duration_seconds`).  The single-track collector omits
`original_track`; since it always equals the track index, one structure
serves both collectors. -/
structure Note where
  track : ℕ
  originalTrack : ℕ
  pitch : ℕ
  channel : ℕ
  velocity : ℕ
  startTick : ℤ
  endTick : ℤ
  startSec : ℚ
  endSec : ℚ
  durTicks : ℤ
  durSec : ℚ
deriving DecidableEq

/-- Default note returned when a heap address is out of range (never reached
by the modelled code paths). -/
def defaultNote : Note :=
  { track := 0, originalTrack := 0, pitch := 0, channel := 0, velocity := 0,
    startTick := 0, endTick := 0, startSec := 0, endSec := 0,
    durTicks := 0, durSec := 0 }

/-- A parsed MIDI track event (`mido` message): only the data the engine
reads is kept.  `timeDelta` is the relative-time field carried by every
message. -/
inductive MidiMsg where
  | noteOn (channel pitch velocity : ℕ) (timeDelta : ℕ)
  | noteOff (channel pitch velocity : ℕ) (timeDelta : ℕ)
  | setTempo (tempo : ℤ) (timeDelta : ℕ)
  | other (timeDelta : ℕ)
deriving DecidableEq

/-- The relative-time (`msg.time`) field of a message. -/
def MidiMsg.timeDelta : MidiMsg → ℕ
  | .noteOn _ _ _ t => t
  | .noteOff _ _ _ t => t
  | .setTempo _ t => t
  | .other t => t

/-- `_ticks_to_seconds(ticks, tempo, ticks_per_beat)`:
`(ticks * tempo) / (ticks_per_beat * 1000000)`. -/
def ticks_to_seconds (ticks tempo ticks_per_beat : ℤ) : ℚ :=
  ((ticks : ℚ) * (tempo : ℚ)) / ((ticks_per_beat : ℚ) * 1000000)

/-- `_seconds_to_ticks(seconds, tempo, ticks_per_beat)`:
`int((seconds * 1000000 * ticks_per_beat) / tempo)`. -/
def seconds_to_ticks (seconds : ℚ) (tempo ticks_per_beat : ℤ) : ℤ :=
  pyInt ((seconds * 1000000 * (ticks_per_beat : ℚ)) / (tempo : ℚ))

/-- `_seconds_to_ticks_precise(seconds, tempo, ticks_per_beat)`:
`seconds_per_beat = tempo / 1000000.0; beats = seconds / seconds_per_beat;
round(beats * ticks_per_beat)`. -/
def seconds_to_ticks_precise (seconds : ℚ) (tempo ticks_per_beat : ℤ) : ℤ :=
  pyRound (seconds / ((tempo : ℚ) / 1000000) * (ticks_per_beat : ℚ))

/-- The tempo-walk loop shared by
`_calculate_absolute_time_with_tempo_changes_precise`: state is
(`total_seconds`, `last_tick_pos`, `last_tempo`); each sorted change point
either closes the walk (event at or before the change point) or contributes
a full segment. -/
def calcLoop (t ticks_per_beat : ℚ) :
    List (ℤ × ℤ) → ℚ → ℚ → ℚ → ℚ
  | [], total, lastPos, lastTempo =>
      total + (t - lastPos) / ticks_per_beat * (lastTempo / 1000000)
  | (pos, tempo) :: rest, total, lastPos, lastTempo =>
      if t ≤ (pos : ℚ) then
        total + (t - lastPos) / ticks_per_beat * (lastTempo / 1000000)
      else
        calcLoop t ticks_per_beat rest
          (total + ((pos : ℚ) - lastPos) / ticks_per_beat * (lastTempo / 1000000))
          (pos : ℚ) (tempo : ℚ)

/-- `_calculate_absolute_time_with_tempo_changes_precise(absolute_ticks,
tempo_changes, ticks_per_beat)`: returns 0 for an empty change list, sorts
the changes by tick (stable), starts from `last_tick_pos = 0` with the first
change's tempo, and walks the segments. -/
def calculate_absolute_time_precise (absolute_ticks : ℤ)
    (tempo_changes : List (ℤ × ℤ)) (ticks_per_beat : ℤ) : ℚ :=
  match sortByKey Prod.fst tempo_changes with
  | [] => 0
  | (p0, t0) :: rest =>
      calcLoop (absolute_ticks : ℚ) (ticks_per_beat : ℚ)
        ((p0, t0) :: rest) 0 0 (t0 : ℚ)

/-- `_tempo_to_bpm(tempo)`: `120.0` for a non-positive tempo (display guard),
otherwise `round(60000000 / tempo, 2)`. -/
def tempo_to_bpm (tempo : ℤ) : ℚ :=
  if tempo ≤ 0 then 120 else pyRound2 (60000000 / (tempo : ℚ))

/-- `_bpm_to_tempo(bpm)`: `500000` for a non-positive BPM, otherwise
`int(60000000 / bpm)`. -/
def bpm_to_tempo (bpm : ℚ) : ℤ :=
  if bpm ≤ 0 then 500000 else pyInt (60000000 / bpm)

/-- The `(absolute_tick, tempo)` observations of one track's `set_tempo`
messages, in track order (the per-track part of `_analyze_tempo`'s
collection scan; the track index stored alongside in the source is only
printed, never used). -/
def trackTempoEvents (track : List MidiMsg) : List (ℤ × ℤ) :=
  (track.foldl
    (fun (st : ℕ × List (ℤ × ℤ)) m =>
      let cursor := st.1 + m.timeDelta
      match m with
      | .setTempo tempo _ => (cursor, st.2 ++ [((cursor : ℤ), tempo)])
      | _ => (cursor, st.2))
    (0, [])).2

/-- The `tempo_changes` table built by `_analyze_tempo`: all tracks'
`set_tempo` observations, sorted by tick (stable), with a tick-0 entry
synthesized from the first observation when it is not at tick 0, and
`[(0, 500000)]` when there is no observation at all.  Tempo values are
stored as read from the file — there is no positivity correction here. -/
def analyze_tempo (tracks : List (List MidiMsg)) : List (ℤ × ℤ) :=
  match sortByKey Prod.fst ((tracks.map trackTempoEvents).flatten) with
  | [] => [(0, 500000)]
  | (t0, tempo0) :: rest =>
      if 0 < t0 then (0, tempo0) :: (t0, tempo0) :: rest
      else (t0, tempo0) :: rest

/-- State of the single scan `_collect_note_positions` /
`collect_multitrack_note_positions` performs over one track: the running
absolute-tick cursor, the per-`(pitch, channel)` FIFO queues of pending
note starts (`active_notes`; each pending record is `(start_tick,
velocity)`; an absent dict key and an empty queue are indistinguishable to
the code, so queues are modelled as a total function into lists), and the
notes emitted so far. -/
structure ExtractState where
  cursor : ℕ
  active : ℕ × ℕ → List (ℕ × ℕ)
  emitted : List Note

/-- The note-stop branch of the collection scan: if the key has a pending
record, pop the oldest (FIFO `pop(0)`) and emit the completed interval,
computing the second positions with
`_calculate_absolute_time_with_tempo_changes_precise`; otherwise do nothing
beyond the cursor update. -/
def noteStopAction (tempo_changes : List (ℤ × ℤ)) (ticks_per_beat : ℤ)
    (track_idx : ℕ) (s : ExtractState) (channel pitch newCursor : ℕ) :
    ExtractState :=
  match s.active (pitch, channel) with
  | [] => { s with cursor := newCursor }
  | (start_tick, velocity) :: rest =>
      let start_seconds :=
        calculate_absolute_time_precise (start_tick : ℤ) tempo_changes ticks_per_beat
      let end_seconds :=
        calculate_absolute_time_precise (newCursor : ℤ) tempo_changes ticks_per_beat
      { cursor := newCursor,
        active := Function.update s.active (pitch, channel) rest,
        emitted := s.emitted ++
          [{ track := track_idx, originalTrack := track_idx, pitch := pitch,
             channel := channel, velocity := velocity,
             startTick := (start_tick : ℤ), endTick := (newCursor : ℤ),
             startSec := start_seconds, endSec := end_seconds,
             durTicks := (newCursor : ℤ) - (start_tick : ℤ),
             durSec := end_seconds - start_seconds }] }

/-- One message of the collection scan: advance the cursor by the delta
time, then: `note_on` with positive velocity pushes a pending record;
`note_off`, or `note_on` with velocity 0, is a note stop; every other
message only advances the cursor. -/
def collectStep (tempo_changes : List (ℤ × ℤ)) (ticks_per_beat : ℤ)
    (track_idx : ℕ) (s : ExtractState) (m : MidiMsg) : ExtractState :=
  let cursor := s.cursor + m.timeDelta
  match m with
  | .noteOn ch p v _ =>
      if 0 < v then
        { cursor := cursor,
          active := Function.update s.active (p, ch)
            (s.active (p, ch) ++ [(cursor, v)]),
          emitted := s.emitted }
      else noteStopAction tempo_changes ticks_per_beat track_idx s ch p cursor
  | .noteOff ch p _ _ =>
      noteStopAction tempo_changes ticks_per_beat track_idx s ch p cursor
  | _ => { s with cursor := cursor }

/-- `collect_multitrack_note_positions`: scan each track with `collectStep`
starting from an empty state, concatenate the emitted notes in track order,
and sort by `start_seconds` (stable). -/
def collect_multitrack_note_positions (tempo_changes : List (ℤ × ℤ))
    (ticks_per_beat : ℤ) (tracks : List (List MidiMsg)) : List Note :=
  sortByKey Note.startSec
    ((tracks.enum.map
      (fun p => (p.2.foldl (collectStep tempo_changes ticks_per_beat p.1)
        { cursor := 0, active := fun _ => [], emitted := [] }).emitted)).flatten)

/-- `_collect_note_positions`: identical pairing algorithm to
`collect_multitrack_note_positions` (the source duplicates the loop; the
only differences are the absent `original_track` dict field and the
warning prints). -/
def collect_note_positions (tempo_changes : List (ℤ × ℤ))
    (ticks_per_beat : ℤ) (tracks : List (List MidiMsg)) : List Note :=
  collect_multitrack_note_positions tempo_changes ticks_per_beat tracks

/-- The ordered `(i, j)` index pairs visited by the nested loops
`for i in range(n): for j in range(i+1, n)`. -/
def allPairs (n : ℕ) : List (ℕ × ℕ) :=
  (List.range n).flatMap
    (fun i => (List.range' (i + 1) (n - (i + 1))).map (fun j => (i, j)))

/-- One recorded overlap of `detect_multitrack_overlaps`: the two notes (by
their position in the analysed list, standing for the dict references the
source stores), the overlapping sub-range, and the descriptive
`same_track` / `same_note` / `same_channel` flags. -/
structure OverlapDetail where
  idx1 : ℕ
  idx2 : ℕ
  note1 : Note
  note2 : Note
  overlapStart : ℚ
  overlapEnd : ℚ
  sameTrack : Bool
  sameNote : Bool
  sameChannel : Bool
deriving DecidableEq

/-- The pairwise detection phase of `detect_multitrack_overlaps` (the
source loads the file, analyses tempo and collects the notes first; the
note list is the parameter here): for every `i < j`, a detail is recorded
exactly when `note1.start_seconds < note2.end_seconds and
note2.start_seconds < note1.end_seconds`. -/
def detect_multitrack_overlaps (all_notes : List Note) : List OverlapDetail :=
  (allPairs all_notes.length).filterMap
    (fun ij =>
      let note1 := all_notes.getD ij.1 defaultNote
      let note2 := all_notes.getD ij.2 defaultNote
      if note1.startSec < note2.endSec ∧ note2.startSec < note1.endSec then
        some { idx1 := ij.1, idx2 := ij.2, note1 := note1, note2 := note2,
               overlapStart := max note1.startSec note2.startSec,
               overlapEnd := min note1.endSec note2.endSec,
               sameTrack := decide (note1.originalTrack = note2.originalTrack),
               sameNote := decide (note1.pitch = note2.pitch),
               sameChannel := decide (note1.channel = note2.channel) }
      else none)

/-- The clipping block shared verbatim by `_fix_same_note_overlaps_corrected`
and `_fix_different_note_overlaps`: set `end_seconds = newEnd`, recompute
`duration_seconds`, and — when `duration_ticks > 0 and old_end >
start_seconds` — recompute `duration_ticks` proportionally
(`int(duration_ticks * tick_ratio)`) and `end_tick = start_tick +
duration_ticks`. -/
def clipNoteTo (cur : Note) (newEnd : ℚ) : Note :=
  let old_end := cur.endSec
  let c1 : Note := { cur with endSec := newEnd, durSec := newEnd - cur.startSec }
  if 0 < cur.durTicks ∧ cur.startSec < old_end then
    let tickScale := c1.durSec / (old_end - cur.startSec)
    let newDurTicks := pyInt ((cur.durTicks : ℚ) * tickScale)
    { c1 with durTicks := newDurTicks, endTick := cur.startTick + newDurTicks }
  else c1

/-- The body of pass 1 for one adjacent pair `(cur, next)` of a sorted
same-pitch group: clip `cur` to `next`'s start exactly when
`cur.end_seconds > next.start_seconds`, else leave it unchanged.  `next` is
not modified. -/
def clipStep (cur nxt : Note) : Note :=
  if nxt.startSec < cur.endSec then clipNoteTo cur nxt.startSec else cur

/-- The `for i in range(len(note_list) - 1)` loop of
`_fix_same_note_overlaps_corrected` over one sorted pitch group, carrying
each note's index in `working_notes` along: each element is mutated only at
its own step (reading `next`'s never-mutated start), so the loop rewrites
element `i` to `clipStep` of itself and its right neighbour and leaves the
last element untouched. -/
def clipGroupLoopIdx : List (ℕ × Note) → List (ℕ × Note)
  | [] => []
  | [x] => [x]
  | x :: y :: rest => (x.1, clipStep x.2 y.2) :: clipGroupLoopIdx (y :: rest)

/-- `_fix_same_note_overlaps_corrected` (value level): group the indexed
notes by pitch in first-occurrence order, sort each group by
`start_seconds` (stable), run the pairwise clipping loop, write the
results back at their original indices, and finally drop every note with
`duration_seconds <= 0.001`. -/
def fix_same_note_overlaps_corrected (notes : List Note) : List Note :=
  let indexed := notes.enum
  let keys := firstOccKeys (notes.map Note.pitch)
  let updates :=
    (keys.map (fun p =>
      clipGroupLoopIdx
        (sortByKey (fun x => x.2.startSec)
          (indexed.filter (fun x => decide (x.2.pitch = p)))))).flatten
  let written := updates.foldl (fun acc x => acc.set x.1 x.2) notes
  written.filter (fun nt => decide ((1 : ℚ)/1000 < nt.durSec))

/-- The `while i < len(working_notes) - 1` scan of
`_fix_different_note_overlaps`: clip `cur` to `next`'s start when the
pitches differ and the open intervals overlap; drop `cur` without advancing
`i` when the clip leaves `duration_seconds <= 0.001`, else store the clipped
note and advance. -/
def diffLoop (l : List Note) (i : ℕ) : List Note :=
  if hlt : i + 1 < l.length then
    let cur := l.get ⟨i, by omega⟩
    let nxt := l.get ⟨i + 1, hlt⟩
    if cur.pitch ≠ nxt.pitch ∧ cur.startSec < nxt.endSec ∧
        nxt.startSec < cur.endSec then
      let c := clipNoteTo cur nxt.startSec
      if c.durSec ≤ 1/1000 then diffLoop (l.eraseIdx i) i
      else diffLoop (l.set i c) (i + 1)
    else diffLoop l (i + 1)
  else l
termination_by l.length - i
decreasing_by
  · have : (l.eraseIdx i).length = l.length - 1 := by
      rw [List.length_eraseIdx]; simp; omega
    omega
  · simp; omega
  · simp; omega

/-- `_fix_different_note_overlaps` (value level): copy, sort by
`start_seconds` (stable), and run the adjacent-pair scan from `i = 0`. -/
def fix_different_note_overlaps (notes : List Note) : List Note :=
  diffLoop (sortByKey Note.startSec notes) 0

/-- `_fix_channel_overlaps` (value level): empty input returns empty;
otherwise copy, sort by `start_seconds`, run the same-pitch pass, then the
cross-pitch pass. -/
def fix_channel_overlaps (notes : List Note) : List Note :=
  if notes.isEmpty then [] else
  fix_different_note_overlaps
    (fix_same_note_overlaps_corrected (sortByKey Note.startSec notes))

/-- Read a note cell of the heap (a Python dict reference). -/
def nget (h : List Note) (a : ℕ) : Note := h.getD a defaultNote

/-- Sort a list of heap addresses by the `start_seconds` of the cells they
point to (stable), as `sorted(notes, key=lambda x: x['start_seconds'])`
does on dict references. -/
def sortByStartH (h : List Note) (g : List ℕ) : List ℕ :=
  sortByKey (fun a => (nget h a).startSec) g

/-- Heap version of the pass-1 pair loop over one sorted pitch group: each
iteration reads both cells fresh from the current heap and, on overlap,
assigns the clipped value back into `cur`'s cell. -/
def clipGroupLoopH : List Note → List ℕ → List Note
  | h, [] => h
  | h, [_] => h
  | h, a :: b :: rest =>
      let cur := nget h a
      let nxt := nget h b
      let h2 := if nxt.startSec < cur.endSec
                then h.set a (clipNoteTo cur nxt.startSec) else h
      clipGroupLoopH h2 (b :: rest)

/-- Process the pitch groups of pass 1 in key order, threading the heap:
each group is sorted by the (never-mutated) `start_seconds` of its cells
and run through the pair loop. -/
def clipGroupsH : List Note → List (List ℕ) → List Note
  | h, [] => h
  | h, g :: gs => clipGroupsH (clipGroupLoopH h (sortByStartH h g)) gs

/-- `_fix_same_note_overlaps_corrected` (heap level): group the addresses
by the pitch of their cells (dict first-occurrence key order), clip each
sorted group, then keep the addresses whose cells now have
`duration_seconds > 0.001`. -/
def fixSameNoteOverlapsH (h : List Note) (addrs : List ℕ) :
    List Note × List ℕ :=
  let keys := firstOccKeys (addrs.map (fun a => (nget h a).pitch))
  let groups := keys.map
    (fun p => addrs.filter (fun a => decide ((nget h a).pitch = p)))
  let h2 := clipGroupsH h groups
  (h2, addrs.filter (fun a => decide ((1 : ℚ)/1000 < (nget h2 a).durSec)))

/-- `_fix_different_note_overlaps`' while loop (heap level): reads both
cells fresh from the current heap each iteration; a clip writes into
`cur`'s cell before the drop test (the source mutates the dict first and
pops it afterwards). -/
def diffLoopH (h : List Note) (l : List ℕ) (i : ℕ) : List Note × List ℕ :=
  if hlt : i + 1 < l.length then
    let cur := nget h (l.get ⟨i, by omega⟩)
    let nxt := nget h (l.get ⟨i + 1, hlt⟩)
    if cur.pitch ≠ nxt.pitch ∧ cur.startSec < nxt.endSec ∧
        nxt.startSec < cur.endSec then
      let c := clipNoteTo cur nxt.startSec
      let h2 := h.set (l.get ⟨i, by omega⟩) c
      if c.durSec ≤ 1/1000 then diffLoopH h2 (l.eraseIdx i) i
      else diffLoopH h2 l (i + 1)
    else diffLoopH h l (i + 1)
  else (h, l)
termination_by l.length - i
decreasing_by
  · have : (l.eraseIdx i).length = l.length - 1 := by
      rw [List.length_eraseIdx]; simp; omega
    omega
  · simp; omega
  · simp; omega

/-- `_fix_different_note_overlaps` (heap level): sort the address list by
current `start_seconds` and scan from `i = 0`. -/
def fixDifferentNoteOverlapsH (h : List Note) (addrs : List ℕ) :
    List Note × List ℕ :=
  diffLoopH h (sortByStartH h addrs) 0

/-- `_fix_channel_overlaps` (heap level): `[note.copy() for note in notes]`
allocates one fresh cell per input address at the end of the heap; the
fresh addresses are sorted by `start_seconds` and run through pass 1 and
pass 2.  Input cells are never written again. -/
def fixChannelOverlapsH (h : List Note) (addrs : List ℕ) :
    List Note × List ℕ :=
  if addrs.isEmpty then (h, []) else
  let h1 := h ++ addrs.map (nget h)
  let fresh := List.range' h.length addrs.length
  let sorted := sortByStartH h1 fresh
  let r1 := fixSameNoteOverlapsH h1 sorted
  fixDifferentNoteOverlapsH r1.1 r1.2

/-- The per-group dispatch loop of `fix_multitrack_overlapping_notes`:
thread the heap through the channel groups, sorting each group and running
`_fix_channel_overlaps` on it; with `skipSingles` (the per-track mode)
groups of at most one note are passed through untouched. -/
def processGroupsH (skipSingles : Bool) :
    List (List ℕ) → List Note → List ℕ → List Note × List ℕ
  | [], h, acc => (h, acc)
  | g :: gs, h, acc =>
      if skipSingles ∧ g.length ≤ 1 then
        processGroupsH skipSingles gs h (acc ++ g)
      else
        let s := sortByStartH h g
        let r := fixChannelOverlapsH h s
        processGroupsH skipSingles gs r.1 (acc ++ r.2)

/-- `fix_multitrack_overlapping_notes` (heap level): empty input is
returned as-is; otherwise `[note.copy() for note in all_notes]` allocates
the processed copies, the copies are grouped by channel
(`fix_cross_track = True`) or by original track and then channel
(`fix_cross_track = False`; singleton groups pass through), each group is
resolved by `_fix_channel_overlaps`, and the surviving addresses are
finally sorted by `start_seconds`.  The `channel` and `original_track`
fields are never mutated anywhere, so the grouping predicates read the
heap as it stands after the copies. -/
def fixMultitrackOverlappingNotesH (h : List Note) (addrs : List ℕ)
    (fix_cross_track : Bool) : List Note × List ℕ :=
  if addrs.isEmpty then (h, addrs) else
  let h1 := h ++ addrs.map (nget h)
  let fresh := List.range' h.length addrs.length
  let gs :=
    if fix_cross_track then
      (firstOccKeys (fresh.map (fun a => (nget h1 a).channel))).map
        (fun c => fresh.filter (fun a => decide ((nget h1 a).channel = c)))
    else
      ((firstOccKeys (fresh.map (fun a => (nget h1 a).originalTrack))).map
        (fun tr => fresh.filter
          (fun a => decide ((nget h1 a).originalTrack = tr)))).flatMap
        (fun tg => (firstOccKeys (tg.map (fun a => (nget h1 a).channel))).map
          (fun c => tg.filter (fun a => decide ((nget h1 a).channel = c))))
  let r := processGroupsH (!fix_cross_track) gs h1 []
  (r.1, sortByStartH r.1 r.2)

/-- An event of `_create_new_midi_with_exact_timing`'s per-track
`track_events` list just before re-emission: its computed new absolute
tick position, plus an opaque payload identity (the `mido` message). -/
structure TimedEvent where
  absTicks : ℤ
  tag : ℕ
deriving DecidableEq

/-- The delta-conversion loop of `_create_new_midi_with_exact_timing`
(`last_tick = 0; for event: delta = abs - last_tick; last_tick = abs`):
pairs each event with its emitted relative time. -/
def toDeltas : List TimedEvent → ℤ → List (ℤ × TimedEvent)
  | [], _ => []
  | e :: rest, last_tick => (e.absTicks - last_tick, e) :: toDeltas rest e.absTicks

/-- The re-emission phase of `_create_new_midi_with_exact_timing` for one
track: `events.sort(key=lambda x: x['absolute_ticks'])` (stable) followed
by the delta conversion starting from `last_tick = 0`. -/
def emit_track_events (events : List TimedEvent) : List (ℤ × TimedEvent) :=
  toDeltas (sortByKey TimedEvent.absTicks events) 0

/-- First note of the spec's same-pitch resolution example (also the
source's `test_overlap_fix` fixture): pitch 60, seconds `[0.0, 2.0]`,
ticks `[0, 1000]`. -/
def noteC3a : Note := ⟨0, 0, 60, 0, 80, 0, 1000, 0, 2, 1000, 2⟩

/-- Second note of the same-pitch example: pitch 60, seconds `[1.0, 3.0]`,
ticks `[500, 1500]`. -/
def noteC3b : Note := ⟨0, 0, 60, 0, 80, 500, 1500, 1, 3, 1000, 2⟩

/-- The first example note after pass 1 clips it to the second's start:
seconds `[0.0, 1.0]`, tick duration `int(1000 * 0.5) = 500`. -/
def noteC3aClipped : Note := ⟨0, 0, 60, 0, 80, 0, 500, 0, 1, 500, 1⟩

/-- Pitch-60 note `[0.0, 1.0005]` seconds of the cross-pitch example
(`1.0005 = 2001/2000`), 960 ticks. -/
def noteC4a : Note := ⟨0, 0, 60, 0, 80, 0, 960, 0, 2001/2000, 960, 2001/2000⟩

/-- Pitch-62 note `[1.0, 2.0]` seconds of the cross-pitch example. -/
def noteC4b : Note := ⟨0, 0, 62, 0, 80, 960, 1920, 1, 2, 960, 1⟩

/-- `noteC4a` after pass 2 clips it to end at `1.0`: a full 1.0-second note
(tick duration `int(960 * (1 / 1.0005)) = 959`), far above the 1 ms drop
threshold. -/
def noteC4aClipped : Note := ⟨0, 0, 60, 0, 80, 0, 959, 0, 1, 959, 1⟩

/-- A pitch-60 note `[1.0, 1.0005]` seconds: clipping it to a following
note starting at `1.0` leaves zero duration, which pass 2 does drop. -/
def noteC4short : Note := ⟨0, 0, 60, 0, 80, 960, 961, 1, 2001/2000, 1, 1/2000⟩

/-- Channel-0 note `[0.0, 2.0]` seconds used for the overlap-analyzer
counterexample. -/
def noteC1a : Note := ⟨0, 0, 60, 0, 80, 0, 960, 0, 2, 960, 2⟩

/-- Channel-1 note `[1.0, 3.0]` seconds: overlaps `noteC1a` in time but on
a different channel. -/
def noteC1b : Note := ⟨0, 0, 62, 1, 80, 480, 1440, 1, 3, 960, 2⟩

/-- The FIFO-pairing example track: two starts of pitch 60 at ticks 0 and
10, then two stops at ticks 20 and 30 (delta times 0, 10, 10, 10). -/
def trackC2 : List MidiMsg :=
  [.noteOn 0 60 100 0, .noteOn 0 60 90 10, .noteOff 0 60 64 10,
   .noteOff 0 60 64 10]

/-- Expected first interval of the FIFO example: ticks `[0, 20]` at
120 BPM, 480 ticks/beat. -/
def noteC2first : Note := ⟨0, 0, 60, 0, 100, 0, 20, 0, 1/48, 20, 1/48⟩

/-- Expected second interval of the FIFO example: ticks `[10, 30]`. -/
def noteC2second : Note := ⟨0, 0, 60, 0, 90, 10, 30, 1/96, 1/32, 20, 1/48⟩

/-- The spec's piecewise-monotonicity tempo map: changes at ticks
`[0, 1000, 2000]` with tempos `[500000, 250000, 1000000]` µs/beat. -/
def tempoMapC6 : List (ℤ × ℤ) := [(0, 500000), (1000, 250000), (2000, 1000000)]

/-- Tick-to-seconds conversion under `tempoMapC6` at 480 ticks/beat. -/
def c6seconds (t : ℤ) : ℚ := calculate_absolute_time_precise t tempoMapC6 480

/-- Heap extension below `n`: the new heap is at least as long, and every
cell at an address below `n` holds exactly its old value (no field of any
note stored there was mutated). -/
def HExt (n : ℕ) (h h2 : List Note) : Prop :=
  h.length ≤ h2.length ∧ ∀ i, i < n → nget h2 i = nget h i

theorem sortByKey_perm {α β : Type} [LinearOrder β] (key : α → β)
    (l : List α) : (sortByKey key l).Perm l :=
  List.perm_insertionSort (byKey key) l

theorem length_sortByKey {α β : Type} [LinearOrder β] (key : α → β)
    (l : List α) : (sortByKey key l).length = l.length :=
  (sortByKey_perm key l).length_eq

theorem mem_sortByKey {α β : Type} [LinearOrder β] (key : α → β)
    (l : List α) (a : α) : a ∈ sortByKey key l ↔ a ∈ l :=
  (sortByKey_perm key l).mem_iff

theorem sorted_sortByKey {α β : Type} [LinearOrder β] (key : α → β)
    (l : List α) : (sortByKey key l).Pairwise (byKey key) := by
  haveI : IsTotal α (byKey key) := ⟨fun a b => le_total (key a) (key b)⟩
  haveI : IsTrans α (byKey key) := ⟨fun _ _ _ hab hbc => le_trans hab hbc⟩
  exact List.sorted_insertionSort (byKey key) l

theorem filter_orderedInsert {α β : Type} [LinearOrder β] (key : α → β)
    (k : β) (x : α) (l : List α) :
    (l.orderedInsert (byKey key) x).filter (fun a => decide (key a = k)) =
      if key x = k then
        x :: l.filter (fun a => decide (key a = k))
      else l.filter (fun a => decide (key a = k)) := by
  induction l with
  | nil =>
      simp only [List.orderedInsert, List.filter]
      by_cases hx : key x = k <;> simp [hx]
  | cons y ys ih =>
      by_cases hxy : byKey key x y
      · simp only [List.orderedInsert, if_pos hxy]
        by_cases hx : key x = k <;> simp [List.filter, hx]
      · simp only [List.orderedInsert, if_neg hxy]
        have hylt : key y < key x := lt_of_not_le hxy
        by_cases hx : key x = k
        · have hy : ¬ (key y = k) := by
            rw [← hx]; exact ne_of_lt hylt
          simp [List.filter, hy, ih, hx]
        · by_cases hy : key y = k <;> simp [List.filter, hy, ih, hx]

theorem filter_key_sortByKey {α β : Type} [LinearOrder β] (key : α → β)
    (k : β) (l : List α) :
    (sortByKey key l).filter (fun a => decide (key a = k)) =
      l.filter (fun a => decide (key a = k)) := by
  induction l with
  | nil => rfl
  | cons x xs ih =>
      show ((sortByKey key xs).orderedInsert (byKey key) x).filter _ = _
      rw [filter_orderedInsert]
      by_cases hx : key x = k <;> simp [List.filter, hx, ih]

theorem mem_firstOccKeys {K : Type} [DecidableEq K] (k : K) (ks : List K) :
    k ∈ firstOccKeys ks ↔ k ∈ ks := by
  induction ks with
  | nil => simp [firstOccKeys]
  | cons k0 rest ih =>
      simp only [firstOccKeys, List.mem_cons, List.mem_filter]
      constructor
      · rintro (rfl | ⟨hmem, _⟩)
        · exact .inl rfl
        · exact .inr (ih.mp hmem)
      · rintro (rfl | hmem)
        · exact .inl rfl
        · by_cases hk : k = k0
          · exact .inl hk
          · exact .inr ⟨ih.mpr hmem, by simp [hk]⟩

theorem nodup_firstOccKeys {K : Type} [DecidableEq K] (ks : List K) :
    (firstOccKeys ks).Nodup := by
  induction ks with
  | nil => simp [firstOccKeys]
  | cons k0 rest ih =>
      simp only [firstOccKeys]
      refine List.Nodup.cons ?_ (ih.filter _)
      intro hmem
      have := (List.mem_filter.mp hmem).2
      simp at this

theorem sum_map_filter_split {K : Type} (l : List K) (f : K → ℕ)
    (p : K → Bool) :
    (((l.filter p).map f).sum) + (((l.filter (fun x => !p x)).map f).sum) =
      ((l.map f).sum) := by
  induction l with
  | nil => simp
  | cons x xs ih =>
      by_cases hx : p x <;> simp [List.filter, hx, ← ih] <;> omega

theorem nodup_filter_eq_single {K : Type} [DecidableEq K] (l : List K)
    (k : K) (h : l.Nodup) :
    l.filter (fun x => decide (x = k)) = if k ∈ l then [k] else [] := by
  induction l with
  | nil => simp
  | cons x xs ih =>
      rcases List.nodup_cons.mp h with ⟨hx, hxs⟩
      by_cases hxk : x = k
      · subst hxk
        simp [List.filter_cons, ih hxs, hx]
      · rw [List.filter_cons]
        have h1 : ¬ (decide (x = k) = true) := by simp [hxk]
        rw [if_neg h1, ih hxs]
        have h2 : (k ∈ x :: xs) ↔ k ∈ xs := by
          constructor
          · intro hc
            rcases List.mem_cons.mp hc with rfl | hmem
            · exact absurd rfl hxk
            · exact hmem
          · exact fun hc => List.mem_cons_of_mem _ hc
        by_cases hmem : k ∈ xs
        · rw [if_pos hmem, if_pos (h2.mpr hmem)]
        · rw [if_neg hmem, if_neg (fun hc => hmem (h2.mp hc))]

theorem filter_key_nil {α K : Type} [DecidableEq K] (key : α → K)
    (l : List α) (k : K) (h : k ∉ l.map key) :
    l.filter (fun x => decide (key x = k)) = [] := by
  induction l with
  | nil => rfl
  | cons x xs ih =>
      simp only [List.map_cons, List.mem_cons, not_or] at h
      have hx : ¬ (key x = k) := fun hc => h.1 hc.symm
      simp [List.filter, hx, ih h.2]

theorem firstOccKeys_partition {α K : Type} [DecidableEq K] (key : α → K)
    (l : List α) :
    (((firstOccKeys (l.map key)).map
        (fun k => (l.filter (fun x => decide (key x = k))).length)).sum) =
      l.length := by
  induction l with
  | nil => simp [firstOccKeys]
  | cons x xs ih =>
      have hfirst : firstOccKeys ((x :: xs).map key)
          = key x :: (firstOccKeys (xs.map key)).filter
              (fun y => !decide (y = key x)) := rfl
      have hcongr : ∀ y ∈ (firstOccKeys (xs.map key)).filter
          (fun y => !decide (y = key x)),
          ((x :: xs).filter (fun a => decide (key a = y))).length =
            (xs.filter (fun a => decide (key a = y))).length := by
        intro y hy
        have hyne : ¬ (key x = y) := by
          have h2 := (List.mem_filter.mp hy).2
          simp at h2
          exact fun hc => h2 hc.symm
        simp [List.filter_cons, hyne]
      have hsplit := sum_map_filter_split (firstOccKeys (xs.map key))
        (fun k => (xs.filter (fun a => decide (key a = k))).length)
        (fun y => decide (y = key x))
      have hsingle := nodup_filter_eq_single (firstOccKeys (xs.map key))
        (key x) (nodup_firstOccKeys (xs.map key))
      rw [hfirst, List.map_cons, List.sum_cons, List.map_congr_left hcongr]
      have hheadlen : ((x :: xs).filter
          (fun a => decide (key a = key x))).length =
          (xs.filter (fun a => decide (key a = key x))).length + 1 := by
        simp [List.filter_cons]
      rw [ih] at hsplit
      by_cases hmem : key x ∈ firstOccKeys (xs.map key)
      · rw [hsingle, if_pos hmem] at hsplit
        simp only [List.map_cons, List.map_nil, List.sum_cons,
          List.sum_nil] at hsplit
        simp only [List.length_cons]
        omega
      · rw [hsingle, if_neg hmem] at hsplit
        simp only [List.map_nil, List.sum_nil] at hsplit
        have hz : (xs.filter (fun a => decide (key a = key x))).length = 0 := by
          rw [filter_key_nil key xs (key x)
            (fun hc => hmem ((mem_firstOccKeys _ _).mpr hc))]
          rfl
        simp only [List.length_cons]
        omega

theorem sum_map_length_flatMap {α γ : Type} (l : List α) (f : α → List γ)
    (g : γ → ℕ) :
    (((l.flatMap f).map g).sum) =
      ((l.map (fun x => ((f x).map g).sum)).sum) := by
  induction l with
  | nil => rfl
  | cons x xs ih => simp [List.flatMap_cons, ih]

theorem pyRound_intCast (n : ℤ) : pyRound (n : ℚ) = n := by
  simp only [pyRound, Int.floor_intCast]
  norm_num

theorem round_trip_eq (T tpb : ℤ) (t : ℕ) (hT : 0 < T) (htpb : 0 < tpb) :
    seconds_to_ticks_precise (ticks_to_seconds t T tpb) T tpb = t := by
  unfold seconds_to_ticks_precise ticks_to_seconds
  have hT' : (T : ℚ) ≠ 0 := by
    exact_mod_cast hT.ne'
  have htpb' : (tpb : ℚ) ≠ 0 := by
    exact_mod_cast htpb.ne'
  have harg : (((t : ℤ) : ℚ) * (T : ℚ)) / ((tpb : ℚ) * 1000000) /
      ((T : ℚ) / 1000000) * (tpb : ℚ) = ((t : ℤ) : ℚ) := by
    field_simp
    ring
  rw [harg, pyRound_intCast]

/-- C5: for every constant tempo `T > 0`, resolution `ticks_per_beat > 0`
and tick value `t ≥ 0`, `_seconds_to_ticks_precise` applied to
`_ticks_to_seconds(t, T, ticks_per_beat)` at the same tempo returns `t`
within ±1 tick (in the exact-rational model it returns `t` exactly). -/
theorem tick_time_round_trip (T tpb : ℤ) (t : ℕ) (hT : 0 < T)
    (htpb : 0 < tpb) :
    (seconds_to_ticks_precise (ticks_to_seconds t T tpb) T tpb -
      (t : ℤ)).natAbs ≤ 1 := by
  rw [round_trip_eq T tpb t hT htpb]
  simp

/-- Witness for C5 at `T = 500000`, `ticks_per_beat = 480`, `t = 100`. -/
theorem tick_time_round_trip_witness :
    (0 : ℤ) < 500000 ∧ (0 : ℤ) < 480 ∧
      (seconds_to_ticks_precise (ticks_to_seconds (100 : ℕ) 500000 480)
        500000 480 - ((100 : ℕ) : ℤ)).natAbs ≤ 1 :=
  ⟨by decide, by decide,
    tick_time_round_trip 500000 480 100 (by decide) (by decide)⟩

theorem c6seconds_closed (t : ℤ) :
    c6seconds t =
      if (t : ℚ) ≤ 1000 then (t : ℚ) / 960
      else if (t : ℚ) ≤ 2000 then 25/24 + ((t : ℚ) - 1000) / 1920
      else 25/16 + ((t : ℚ) - 2000) / 480 := by
  have hs : sortByKey Prod.fst tempoMapC6 =
      [((0 : ℤ), (500000 : ℤ)), (1000, 250000), (2000, 1000000)] := by decide
  unfold c6seconds calculate_absolute_time_precise
  rw [hs]
  simp only [calcLoop]
  push_cast
  split_ifs with h1 h2 h3 h4 <;> linarith

/-- C6: for the tempo map with changes at ticks `[0, 1000, 2000]` and
tempos `[500000, 250000, 1000000]` µs/beat at 480 ticks/beat, the
tick-to-seconds conversion
`_calculate_absolute_time_with_tempo_changes_precise` is strictly
increasing in the tick argument. -/
theorem tempo_map_seconds_strict_mono (t1 t2 : ℕ) (h : t1 < t2) :
    calculate_absolute_time_precise (t1 : ℤ) tempoMapC6 480 <
      calculate_absolute_time_precise (t2 : ℤ) tempoMapC6 480 := by
  have h1 := c6seconds_closed (t1 : ℤ)
  have h2 := c6seconds_closed (t2 : ℤ)
  unfold c6seconds at h1 h2
  rw [h1, h2]
  have hq : ((t1 : ℤ) : ℚ) < ((t2 : ℤ) : ℚ) := by exact_mod_cast h
  have h0 : (0 : ℚ) ≤ ((t1 : ℤ) : ℚ) := by positivity
  split_ifs <;> linarith

/-- Witness for C6 at ticks 5 < 7. -/
theorem tempo_map_seconds_strict_mono_witness :
    (5 : ℕ) < 7 ∧
      calculate_absolute_time_precise ((5 : ℕ) : ℤ) tempoMapC6 480 <
        calculate_absolute_time_precise ((7 : ℕ) : ℤ) tempoMapC6 480 :=
  ⟨by decide, tempo_map_seconds_strict_mono 5 7 (by decide)⟩

/-- C8 counterexample: a file whose only tempo event is `set_tempo 0`
keeps the non-positive tempo `0` in the tempo table (it is not corrected
to 500000), and the subsequent tick-to-seconds computation uses the raw
value: 960 ticks map to 0 seconds, while the claimed corrected table would
map them to 1 second. -/
theorem nonpositive_tempo_not_corrected :
    analyze_tempo [[MidiMsg.setTempo 0 0]] = [(0, 0)] ∧
    analyze_tempo [[MidiMsg.setTempo 0 0]] ≠ [(0, 500000)] ∧
    calculate_absolute_time_precise 960
      (analyze_tempo [[MidiMsg.setTempo 0 0]]) 480 = 0 ∧
    calculate_absolute_time_precise 960 [((0 : ℤ), (500000 : ℤ))] 480 = 1 := by
  refine ⟨by decide, by decide, ?_, ?_⟩ <;>
    norm_num [analyze_tempo, trackTempoEvents, MidiMsg.timeDelta,
      calculate_absolute_time_precise, calcLoop, sortByKey,
      List.insertionSort, List.orderedInsert, byKey]

/-- C8 (amended): a non-positive tempo value read from the input is kept
as-is in the tempo table and used raw by the tick-to-seconds conversions;
only the tempo-to-BPM display conversion substitutes 120 BPM for it, and a
file with no tempo events at all falls back to the default table
`[(0, 500000)]`. -/
theorem nonpositive_tempo_handling :
    (∀ tempo : ℤ, tempo ≤ 0 → tempo_to_bpm tempo = 120) ∧
    analyze_tempo [[MidiMsg.other 0]] = [(0, 500000)] ∧
    analyze_tempo [[MidiMsg.setTempo 0 0]] = [(0, 0)] := by
  refine ⟨?_, by decide, by decide⟩
  intro tempo h
  simp [tempo_to_bpm, h]

/-- Witness for C8 (amended) at `tempo = 0`. -/
theorem nonpositive_tempo_handling_witness :
    (0 : ℤ) ≤ 0 ∧ tempo_to_bpm 0 = 120 :=
  ⟨by decide, nonpositive_tempo_handling.1 0 (by decide)⟩

theorem mem_allPairs (n i j : ℕ) :
    (i, j) ∈ allPairs n ↔ i < j ∧ j < n := by
  unfold allPairs
  simp only [List.mem_flatMap, List.mem_range, List.mem_map,
    List.mem_range'_1, Prod.mk.injEq]
  constructor
  · rintro ⟨i', hi', j', ⟨hj1, hj2⟩, rfl, rfl⟩
    omega
  · rintro ⟨hij, hjn⟩
    exact ⟨i, by omega, j, ⟨by omega, by omega⟩, rfl, rfl⟩

/-- C1 counterexample: a pair of time-overlapping notes on different
channels (`noteC1a` on channel 0, `noteC1b` on channel 1) is recorded by
`detect_multitrack_overlaps` — with `same_channel = false` — refuting the
claim that a pair on different channels is never recorded. -/
theorem overlap_detection_ignores_channel :
    (detect_multitrack_overlaps [noteC1a, noteC1b]).map
      (fun d => (d.idx1, d.idx2, d.sameChannel)) = [(0, 1, false)] ∧
    noteC1a.channel ≠ noteC1b.channel := by
  constructor
  · have hap : allPairs 2 = [(0, 1)] := by decide
    norm_num [detect_multitrack_overlaps, hap, noteC1a, noteC1b,
      List.filterMap]
  · decide

/-- C1 (amended): the overlap analyzer records an overlap for an unordered
pair `(i, j)` with `i < j` if and only if the two notes' open time ranges
intersect (`a.start < b.end` and `b.start < a.end`), regardless of channel;
channel equality is only stored as the descriptive `same_channel` flag, and
a pair whose intervals merely touch at a boundary is never recorded. -/
theorem overlap_detection_characterization (notes : List Note) (i j : ℕ)
    (hij : i < j) (hj : j < notes.length) :
    (∃ d ∈ detect_multitrack_overlaps notes, d.idx1 = i ∧ d.idx2 = j) ↔
      ((notes.getD i defaultNote).startSec <
          (notes.getD j defaultNote).endSec ∧
        (notes.getD j defaultNote).startSec <
          (notes.getD i defaultNote).endSec) := by
  unfold detect_multitrack_overlaps
  constructor
  · rintro ⟨d, hd, hdi, hdj⟩
    rw [List.mem_filterMap] at hd
    obtain ⟨ij, _, hsome⟩ := hd
    by_cases hc : (notes.getD ij.1 defaultNote).startSec <
        (notes.getD ij.2 defaultNote).endSec ∧
        (notes.getD ij.2 defaultNote).startSec <
        (notes.getD ij.1 defaultNote).endSec
    · rw [if_pos hc] at hsome
      have hd1 : d.idx1 = ij.1 := by rw [← Option.some_inj.mp hsome]
      have hd2 : d.idx2 = ij.2 := by rw [← Option.some_inj.mp hsome]
      rw [hdi] at hd1
      rw [hdj] at hd2
      rw [hd1, hd2]
      exact hc
    · rw [if_neg hc] at hsome
      exact absurd hsome (by simp)
  · intro hov
    exact ⟨_, List.mem_filterMap.mpr
      ⟨(i, j), (mem_allPairs notes.length i j).mpr ⟨hij, hj⟩, if_pos hov⟩,
      rfl, rfl⟩

/-- Witness for C1 (amended) at the concrete two-note list. -/
theorem overlap_detection_characterization_witness :
    ((∃ d ∈ detect_multitrack_overlaps [noteC1a, noteC1b],
        d.idx1 = 0 ∧ d.idx2 = 1) ↔
      (([noteC1a, noteC1b].getD 0 defaultNote).startSec <
          ([noteC1a, noteC1b].getD 1 defaultNote).endSec ∧
        ([noteC1a, noteC1b].getD 1 defaultNote).startSec <
          ([noteC1a, noteC1b].getD 0 defaultNote).endSec)) :=
  overlap_detection_characterization [noteC1a, noteC1b] 0 1 (by decide)
    (by decide)

/-- C2: the extractor pairs each note-stop event (explicit `note_off`, or
`note_on` with velocity 0) with the oldest pending record of the same
`(pitch, channel)` key — `pop(0)`, FIFO — emitting the completed interval;
and on the concrete track with two pitch-60 starts at ticks 0 and 10
followed by two stops at ticks 20 and 30 it emits the intervals `[0, 20]`
and `[10, 30]` (not `[0, 30]` and `[10, 20]`). -/
theorem fifo_note_pairing :
    (∀ (tempo_changes : List (ℤ × ℤ)) (ticks_per_beat : ℤ)
        (track_idx : ℕ) (s : ExtractState) (ch p v t st vel : ℕ)
        (rest : List (ℕ × ℕ)),
        s.active (p, ch) = (st, vel) :: rest →
        collectStep tempo_changes ticks_per_beat track_idx s
            (.noteOff ch p v t) =
          { cursor := s.cursor + t,
            active := Function.update s.active (p, ch) rest,
            emitted := s.emitted ++
              [{ track := track_idx, originalTrack := track_idx, pitch := p,
                 channel := ch, velocity := vel, startTick := (st : ℤ),
                 endTick := ((s.cursor + t : ℕ) : ℤ),
                 startSec := calculate_absolute_time_precise (st : ℤ)
                   tempo_changes ticks_per_beat,
                 endSec := calculate_absolute_time_precise
                   ((s.cursor + t : ℕ) : ℤ) tempo_changes ticks_per_beat,
                 durTicks := ((s.cursor + t : ℕ) : ℤ) - (st : ℤ),
                 durSec := calculate_absolute_time_precise
                     ((s.cursor + t : ℕ) : ℤ) tempo_changes ticks_per_beat -
                   calculate_absolute_time_precise (st : ℤ)
                     tempo_changes ticks_per_beat }] }) ∧
    (∀ (tempo_changes : List (ℤ × ℤ)) (ticks_per_beat : ℤ)
        (track_idx : ℕ) (s : ExtractState) (ch p t : ℕ),
        collectStep tempo_changes ticks_per_beat track_idx s
            (.noteOn ch p 0 t) =
          noteStopAction tempo_changes ticks_per_beat track_idx s ch p
            (s.cursor + t)) ∧
    collect_note_positions [((0 : ℤ), (500000 : ℤ))] 480 [trackC2] =
      [noteC2first, noteC2second] := by
  refine ⟨?_, ?_, ?_⟩
  · intro tempo_changes ticks_per_beat track_idx s ch p v t st vel rest h
    simp [collectStep, MidiMsg.timeDelta, noteStopAction, h]
  · intro tempo_changes ticks_per_beat track_idx s ch p t
    simp [collectStep, MidiMsg.timeDelta]
  · norm_num [collect_note_positions, collect_multitrack_note_positions,
      trackC2, collectStep, noteStopAction, MidiMsg.timeDelta,
      calculate_absolute_time_precise, calcLoop, sortByKey,
      List.insertionSort, List.orderedInsert, byKey, List.enum,
      List.enumFrom, Function.update_same, Function.update_noteq,
      noteC2first, noteC2second]

/-- Witness for C2's pop rule at a concrete state with one pending
pitch-60 record. -/
theorem fifo_note_pairing_witness :
    collectStep [((0 : ℤ), (500000 : ℤ))] 480 0
        { cursor := 20,
          active := Function.update (fun _ => []) (60, 0) [(0, 100)],
          emitted := [] } (.noteOff 0 60 64 0) =
      { cursor := 20 + 0,
        active := Function.update
          (Function.update (fun _ => []) (60, 0) [(0, 100)]) (60, 0) [],
        emitted := [] ++
          [{ track := 0, originalTrack := 0, pitch := 60, channel := 0,
             velocity := 100, startTick := (0 : ℤ),
             endTick := ((20 + 0 : ℕ) : ℤ),
             startSec := calculate_absolute_time_precise 0
               [((0 : ℤ), (500000 : ℤ))] 480,
             endSec := calculate_absolute_time_precise ((20 + 0 : ℕ) : ℤ)
               [((0 : ℤ), (500000 : ℤ))] 480,
             durTicks := ((20 + 0 : ℕ) : ℤ) - (0 : ℤ),
             durSec := calculate_absolute_time_precise ((20 + 0 : ℕ) : ℤ)
                 [((0 : ℤ), (500000 : ℤ))] 480 -
               calculate_absolute_time_precise 0
                 [((0 : ℤ), (500000 : ℤ))] 480 }] } :=
  fifo_note_pairing.1 [((0 : ℤ), (500000 : ℤ))] 480 0 _ 0 60 64 0 0 100 []
    (by simp [Function.update_same])

/-- C10: a note-stop event (`note_off`, or `note_on` with velocity 0) whose
`(pitch, channel)` key has no pending start is silently ignored: the step
emits no interval, changes no pending queue, and only advances the
absolute-tick cursor by the event's delta time. -/
theorem unmatched_note_stop_ignored :
    (∀ (tempo_changes : List (ℤ × ℤ)) (ticks_per_beat : ℤ)
        (track_idx : ℕ) (s : ExtractState) (ch p v t : ℕ),
        s.active (p, ch) = [] →
        collectStep tempo_changes ticks_per_beat track_idx s
            (.noteOff ch p v t) = { s with cursor := s.cursor + t }) ∧
    (∀ (tempo_changes : List (ℤ × ℤ)) (ticks_per_beat : ℤ)
        (track_idx : ℕ) (s : ExtractState) (ch p t : ℕ),
        s.active (p, ch) = [] →
        collectStep tempo_changes ticks_per_beat track_idx s
            (.noteOn ch p 0 t) = { s with cursor := s.cursor + t }) := by
  constructor
  · intro tempo_changes ticks_per_beat track_idx s ch p v t h
    simp [collectStep, MidiMsg.timeDelta, noteStopAction, h]
  · intro tempo_changes ticks_per_beat track_idx s ch p t h
    simp [collectStep, MidiMsg.timeDelta, noteStopAction, h]

/-- Witness for C10 at the empty initial state. -/
theorem unmatched_note_stop_ignored_witness :
    collectStep [((0 : ℤ), (500000 : ℤ))] 480 0
        { cursor := 5, active := fun _ => [], emitted := [] }
        (.noteOff 0 60 64 7) =
      { cursor := 5 + 7, active := fun _ => [], emitted := [] } :=
  unmatched_note_stop_ignored.1 [((0 : ℤ), (500000 : ℤ))] 480 0
    { cursor := 5, active := fun _ => [], emitted := [] } 0 60 64 7 rfl

theorem clipGroupLoopIdx_get_pair (g : List (ℕ × Note)) :
    ∀ (i : ℕ) (x y : ℕ × Note), g[i]? = some x → g[i + 1]? = some y →
      (clipGroupLoopIdx g)[i]? = some (x.1, clipStep x.2 y.2) := by
  induction g with
  | nil => intro i x y hx _; simp at hx
  | cons a t ih =>
      intro i x y hx hy
      cases t with
      | nil =>
          cases i with
          | zero => simp at hy
          | succ n => simp at hx
      | cons b rest =>
          cases i with
          | zero =>
              simp only [List.getElem?_cons_zero, Option.some_inj] at hx
              have hy2 : b = y := by simpa using hy
              subst hx
              subst hy2
              simp [clipGroupLoopIdx]
          | succ n =>
              have hx2 : (b :: rest)[n]? = some x := by simpa using hx
              have hy2 : (b :: rest)[n + 1]? = some y := by simpa using hy
              have h := ih n x y hx2 hy2
              simpa [clipGroupLoopIdx] using h

theorem clipGroupLoopIdx_get_last (g : List (ℕ × Note)) :
    ∀ (n : ℕ) (x : ℕ × Note), g.length = n + 1 → g[n]? = some x →
      (clipGroupLoopIdx g)[n]? = some x := by
  induction g with
  | nil => intro n x hlen _; simp at hlen
  | cons a t ih =>
      intro n x hlen hx
      cases t with
      | nil =>
          cases n with
          | zero => simpa [clipGroupLoopIdx] using hx
          | succ m => simp at hlen
      | cons b rest =>
          cases n with
          | zero => simp at hlen
          | succ m =>
              have hx2 : (b :: rest)[m]? = some x := by simpa using hx
              have hlen2 : (b :: rest).length = m + 1 := by
                simp at hlen ⊢
                omega
              have h := ih m x hlen2 hx2
              simpa [clipGroupLoopIdx] using h

theorem clipStep_spec (cur nxt : Note) (h : nxt.startSec < cur.endSec) :
    (clipStep cur nxt).endSec = nxt.startSec ∧
    (clipStep cur nxt).startSec = cur.startSec ∧
    (clipStep cur nxt).durSec = nxt.startSec - cur.startSec ∧
    (0 < cur.durTicks ∧ cur.startSec < cur.endSec →
      (clipStep cur nxt).durTicks =
        pyInt ((cur.durTicks : ℚ) *
          ((nxt.startSec - cur.startSec) /
            (cur.endSec - cur.startSec))) ∧
      (clipStep cur nxt).endTick =
        cur.startTick + (clipStep cur nxt).durTicks) := by
  unfold clipStep clipNoteTo
  rw [if_pos h]
  by_cases hg : 0 < cur.durTicks ∧ cur.startSec < cur.endSec
  · rw [if_pos hg]
    refine ⟨rfl, rfl, rfl, fun _ => ⟨rfl, rfl⟩⟩
  · rw [if_neg hg]
    exact ⟨rfl, rfl, rfl, fun hc => absurd hc hg⟩

/-- C3: in pass 1 over one channel, within each pitch group sorted by start
time the pairwise loop rewrites each element to `clipStep` of itself and
its right neighbour — so a note is clipped exactly when its current end
exceeds the next start, the clip sets `end = next.start` with the
proportional tick recomputation, and the next (and in particular the last)
note of the group is never altered; the concrete example
`[0.0, 2.0]` / `[1.0, 3.0]` (pitch 60) resolves through the whole pass to
exactly `[0.0, 1.0]` / `[1.0, 3.0]`. -/
theorem same_pitch_pass_behavior :
    (∀ (g : List (ℕ × Note)) (i : ℕ) (x y : ℕ × Note),
        g[i]? = some x → g[i + 1]? = some y →
        (clipGroupLoopIdx g)[i]? = some (x.1, clipStep x.2 y.2)) ∧
    (∀ (g : List (ℕ × Note)) (n : ℕ) (x : ℕ × Note),
        g.length = n + 1 → g[n]? = some x →
        (clipGroupLoopIdx g)[n]? = some x) ∧
    (∀ (cur nxt : Note), nxt.startSec < cur.endSec →
        (clipStep cur nxt).endSec = nxt.startSec ∧
        (clipStep cur nxt).durSec = nxt.startSec - cur.startSec ∧
        (0 < cur.durTicks ∧ cur.startSec < cur.endSec →
          (clipStep cur nxt).durTicks =
            pyInt ((cur.durTicks : ℚ) *
              ((nxt.startSec - cur.startSec) /
                (cur.endSec - cur.startSec))))) ∧
    (∀ (cur nxt : Note), ¬ (nxt.startSec < cur.endSec) →
        clipStep cur nxt = cur) ∧
    fix_same_note_overlaps_corrected [noteC3a, noteC3b] =
      [noteC3aClipped, noteC3b] := by
  refine ⟨clipGroupLoopIdx_get_pair, clipGroupLoopIdx_get_last, ?_, ?_, ?_⟩
  · intro cur nxt h
    obtain ⟨h1, _, h3, h4⟩ := clipStep_spec cur nxt h
    exact ⟨h1, h3, fun hg => (h4 hg).1⟩
  · intro cur nxt h
    unfold clipStep
    rw [if_neg h]
  · norm_num [fix_same_note_overlaps_corrected, noteC3a, noteC3b,
      noteC3aClipped, firstOccKeys, sortByKey, List.insertionSort,
      List.orderedInsert, byKey, clipGroupLoopIdx, clipStep, clipNoteTo,
      pyInt, List.enum, List.enumFrom]

/-- Witness for C3 at the concrete two-element group. -/
theorem same_pitch_pass_behavior_witness :
    (clipGroupLoopIdx [(0, noteC3a), (1, noteC3b)])[0]? =
      some (0, clipStep noteC3a noteC3b) :=
  same_pitch_pass_behavior.1 [(0, noteC3a), (1, noteC3b)] 0
    (0, noteC3a) (1, noteC3b) rfl rfl

theorem diffLoop_stop (l : List Note) (i : ℕ) (h : ¬ (i + 1 < l.length)) :
    diffLoop l i = l := by
  rw [diffLoop, dif_neg h]

theorem diffLoop_clip (l : List Note) (i : ℕ) (cur nxt : Note)
    (hc : l[i]? = some cur) (hn : l[i + 1]? = some nxt)
    (hp : cur.pitch ≠ nxt.pitch) (h1 : cur.startSec < nxt.endSec)
    (h2 : nxt.startSec < cur.endSec) :
    diffLoop l i =
      if (clipNoteTo cur nxt.startSec).durSec ≤ 1/1000
      then diffLoop (l.eraseIdx i) i
      else diffLoop (l.set i (clipNoteTo cur nxt.startSec)) (i + 1) := by
  have hlt : i + 1 < l.length := by
    by_contra hcon
    rw [List.getElem?_eq_none (by omega)] at hn
    exact Option.noConfusion hn
  have hcur : l.get ⟨i, by omega⟩ = cur := by
    rw [List.get_eq_getElem, ← Option.some_inj, ← List.getElem?_eq_getElem]
    exact hc
  have hnxt : l.get ⟨i + 1, hlt⟩ = nxt := by
    rw [List.get_eq_getElem, ← Option.some_inj, ← List.getElem?_eq_getElem]
    exact hn
  rw [diffLoop, dif_pos hlt, hcur, hnxt, if_pos ⟨hp, h1, h2⟩]

theorem fix_different_c4_kept :
    fix_different_note_overlaps [noteC4a, noteC4b] =
      [noteC4aClipped, noteC4b] := by
  have hsort : sortByKey Note.startSec [noteC4a, noteC4b] =
      [noteC4a, noteC4b] := by
    norm_num [sortByKey, List.insertionSort, List.orderedInsert, byKey,
      noteC4a, noteC4b]
  have hclip : clipNoteTo noteC4a noteC4b.startSec = noteC4aClipped := by
    norm_num [clipNoteTo, pyInt, noteC4a, noteC4b, noteC4aClipped]
  unfold fix_different_note_overlaps
  rw [hsort]
  rw [diffLoop_clip [noteC4a, noteC4b] 0 noteC4a noteC4b rfl rfl
    (by decide) (by norm_num [noteC4a, noteC4b])
    (by norm_num [noteC4a, noteC4b])]
  rw [hclip, if_neg (by norm_num [noteC4aClipped])]
  have hset : [noteC4a, noteC4b].set 0 noteC4aClipped =
      [noteC4aClipped, noteC4b] := rfl
  rw [hset]
  exact diffLoop_stop _ 1 (by simp)

/-- C4 counterexample: on the claim's concrete example — pitch 60 over
`[0.0, 1.0005]` followed by pitch 62 over `[1.0, 2.0]` — the clip leaves
the first note a full 1.0-second duration, so it is NOT dropped: the pass
returns both notes. -/
theorem cross_pitch_example_not_dropped :
    fix_different_note_overlaps [noteC4a, noteC4b] =
      [noteC4aClipped, noteC4b] ∧
    (fix_different_note_overlaps [noteC4a, noteC4b]).length ≠ 1 ∧
    noteC4aClipped.pitch = 60 ∧ noteC4aClipped.endSec = 1 ∧
    noteC4aClipped.durSec = 1 := by
  refine ⟨fix_different_c4_kept, ?_, rfl, rfl, rfl⟩
  rw [fix_different_c4_kept]
  simp

/-- C4 (amended): in the cross-pitch pass, an adjacent different-pitch
pair with open-interval overlap has `cur` clipped to `next`'s start; the
clipped note is dropped — with the scan not advancing — exactly when the
remaining duration is at most 1 ms.  On the example pitch-60
`[0.0, 1.0005]` vs pitch-62 `[1.0, 2.0]`, the first note is clipped to
end at 1.0 and KEPT (its 1.0-s duration exceeds the threshold); a pitch-60
note `[1.0, 1.0005]` in the same position is clipped to zero duration and
dropped. -/
theorem cross_pitch_pass_behavior :
    (∀ (l : List Note) (i : ℕ) (cur nxt : Note),
        l[i]? = some cur → l[i + 1]? = some nxt →
        cur.pitch ≠ nxt.pitch → cur.startSec < nxt.endSec →
        nxt.startSec < cur.endSec →
        diffLoop l i =
          if (clipNoteTo cur nxt.startSec).durSec ≤ 1/1000
          then diffLoop (l.eraseIdx i) i
          else diffLoop (l.set i (clipNoteTo cur nxt.startSec)) (i + 1)) ∧
    fix_different_note_overlaps [noteC4a, noteC4b] =
      [noteC4aClipped, noteC4b] ∧
    fix_different_note_overlaps [noteC4short, noteC4b] = [noteC4b] := by
  refine ⟨diffLoop_clip, fix_different_c4_kept, ?_⟩
  have hsort : sortByKey Note.startSec [noteC4short, noteC4b] =
      [noteC4short, noteC4b] := by
    norm_num [sortByKey, List.insertionSort, List.orderedInsert, byKey,
      noteC4short, noteC4b]
  unfold fix_different_note_overlaps
  rw [hsort]
  rw [diffLoop_clip [noteC4short, noteC4b] 0 noteC4short noteC4b rfl rfl
    (by decide) (by norm_num [noteC4short, noteC4b])
    (by norm_num [noteC4short, noteC4b])]
  rw [if_pos (by norm_num [clipNoteTo, pyInt, noteC4short, noteC4b])]
  have herase : [noteC4short, noteC4b].eraseIdx 0 = [noteC4b] := rfl
  rw [herase]
  exact diffLoop_stop _ 0 (by simp)

/-- Witness for C4 (amended): the clip rule applied at the concrete
dropped-note input. -/
theorem cross_pitch_pass_behavior_witness :
    diffLoop [noteC4short, noteC4b] 0 =
      if (clipNoteTo noteC4short noteC4b.startSec).durSec ≤ 1/1000
      then diffLoop ([noteC4short, noteC4b].eraseIdx 0) 0
      else diffLoop ([noteC4short, noteC4b].set 0
        (clipNoteTo noteC4short noteC4b.startSec)) 1 :=
  cross_pitch_pass_behavior.1 [noteC4short, noteC4b] 0 noteC4short noteC4b
    rfl rfl (by decide) (by norm_num [noteC4short, noteC4b])
    (by norm_num [noteC4short, noteC4b])

theorem toDeltas_head (l : List TimedEvent) (last d : ℤ) (e : TimedEvent)
    (h : (toDeltas l last)[0]? = some (d, e)) : d = e.absTicks - last := by
  cases l with
  | nil => simp [toDeltas] at h
  | cons x xs =>
      simp only [toDeltas, List.getElem?_cons_zero, Option.some_inj] at h
      injection h with h1 h2
      rw [← h1, ← h2]

theorem toDeltas_delta (l : List TimedEvent) :
    ∀ (last : ℤ) (i : ℕ) (d d' : ℤ) (e e' : TimedEvent),
      (toDeltas l last)[i]? = some (d, e) →
      (toDeltas l last)[i + 1]? = some (d', e') →
      d' = e'.absTicks - e.absTicks := by
  induction l with
  | nil => intro last i d d' e e' h _; simp [toDeltas] at h
  | cons x xs ih =>
      intro last i d d' e e' h h'
      cases i with
      | zero =>
          simp only [toDeltas, List.getElem?_cons_zero,
            Option.some_inj] at h
          injection h with _ h2
          have h'2 : (toDeltas xs x.absTicks)[0]? = some (d', e') := by
            simpa [toDeltas] using h'
          rw [← h2]
          exact toDeltas_head xs x.absTicks d' e' h'2
      | succ n =>
          have h2 : (toDeltas xs x.absTicks)[n]? = some (d, e) := by
            simpa [toDeltas] using h
          have h'2 : (toDeltas xs x.absTicks)[n + 1]? = some (d', e') := by
            simpa [toDeltas] using h'
          exact ih x.absTicks n d d' e e' h2 h'2

theorem toDeltas_sum (l : List TimedEvent) :
    ∀ (last : ℤ) (i : ℕ) (d : ℤ) (e : TimedEvent),
      (toDeltas l last)[i]? = some (d, e) →
      ((((toDeltas l last).take (i + 1)).map Prod.fst).sum) =
        e.absTicks - last := by
  induction l with
  | nil => intro last i d e h; simp [toDeltas] at h
  | cons x xs ih =>
      intro last i d e h
      cases i with
      | zero =>
          simp only [toDeltas, List.getElem?_cons_zero,
            Option.some_inj] at h
          injection h with _ h2
          simp [toDeltas, ← h2]
      | succ n =>
          have h2 : (toDeltas xs x.absTicks)[n]? = some (d, e) := by
            simpa [toDeltas] using h
          have hs := ih x.absTicks n d e h2
          simp only [toDeltas, List.take_succ_cons, List.map_cons,
            List.sum_cons, hs]
          ring

theorem toDeltas_nonneg (l : List TimedEvent) :
    ∀ (last : ℤ), l.Pairwise (byKey TimedEvent.absTicks) →
      (∀ e ∈ l, last ≤ e.absTicks) →
      ∀ p ∈ toDeltas l last, 0 ≤ p.1 := by
  induction l with
  | nil => intro last _ _ p hp; simp [toDeltas] at hp
  | cons x xs ih =>
      intro last hpw hlb p hp
      simp only [toDeltas, List.mem_cons] at hp
      rcases hp with rfl | hp
      · have := hlb x (List.mem_cons_self x xs)
        simp only
        omega
      · refine ih x.absTicks (List.pairwise_cons.mp hpw).2 ?_ p hp
        intro e he
        exact (List.pairwise_cons.mp hpw).1 e he

/-- C9: the retimer's re-emission sorts a track's events by new absolute
tick with a stable sort (elements of equal tick keep their original
relative order — the filter characterization), and converts to deltas with
`delta_0 = abs_0` and `delta_{i+1} = abs_{i+1} − abs_i`; consequently the
running delta sum up to event `i` equals that event's absolute tick, and
when all input absolute ticks are non-negative so is every emitted
delta. -/
theorem retimer_sort_and_deltas :
    (∀ (events : List TimedEvent),
        (sortByKey TimedEvent.absTicks events).Pairwise
          (byKey TimedEvent.absTicks)) ∧
    (∀ (events : List TimedEvent) (k : ℤ),
        (sortByKey TimedEvent.absTicks events).filter
            (fun e => decide (e.absTicks = k)) =
          events.filter (fun e => decide (e.absTicks = k))) ∧
    (∀ (events : List TimedEvent) (d : ℤ) (e : TimedEvent),
        (emit_track_events events)[0]? = some (d, e) → d = e.absTicks) ∧
    (∀ (events : List TimedEvent) (i : ℕ) (d d' : ℤ) (e e' : TimedEvent),
        (emit_track_events events)[i]? = some (d, e) →
        (emit_track_events events)[i + 1]? = some (d', e') →
        d' = e'.absTicks - e.absTicks) ∧
    (∀ (events : List TimedEvent) (i : ℕ) (d : ℤ) (e : TimedEvent),
        (emit_track_events events)[i]? = some (d, e) →
        ((((emit_track_events events).take (i + 1)).map Prod.fst).sum) =
          e.absTicks) ∧
    (∀ (events : List TimedEvent),
        (∀ e ∈ events, 0 ≤ e.absTicks) →
        ∀ p ∈ emit_track_events events, 0 ≤ p.1) := by
  refine ⟨sorted_sortByKey TimedEvent.absTicks,
    fun events k => filter_key_sortByKey TimedEvent.absTicks k events,
    ?f3, ?f4, ?f5, ?f6⟩
  case f3 =>
    intro events d e h
    have := toDeltas_head (sortByKey TimedEvent.absTicks events) 0 d e h
    omega
  case f4 =>
    intro events i d d' e e' h h'
    exact toDeltas_delta (sortByKey TimedEvent.absTicks events) 0 i d d'
      e e' h h'
  case f5 =>
    intro events i d e h
    unfold emit_track_events at h ⊢
    have := toDeltas_sum (sortByKey TimedEvent.absTicks events) 0 i d e h
    omega
  case f6 =>
    intro events hnn p hp
    refine toDeltas_nonneg (sortByKey TimedEvent.absTicks events) 0
      (sorted_sortByKey TimedEvent.absTicks events) ?_ p hp
    intro e he
    exact hnn e ((mem_sortByKey TimedEvent.absTicks events e).mp he)

/-- Witness for C9 at a concrete three-event track with a tick tie. -/
theorem retimer_sort_and_deltas_witness :
    (emit_track_events [⟨5, 0⟩, ⟨3, 1⟩, ⟨5, 2⟩])[0]? =
        some (3, ⟨3, 1⟩) ∧
      (3 : ℤ) = (⟨3, 1⟩ : TimedEvent).absTicks :=
  ⟨by decide,
    retimer_sort_and_deltas.2.2.1 [⟨5, 0⟩, ⟨3, 1⟩, ⟨5, 2⟩] 3 ⟨3, 1⟩
      (by decide)⟩

theorem HExt_refl (n : ℕ) (h : List Note) : HExt n h h :=
  ⟨le_refl _, fun _ _ => rfl⟩

theorem HExt_trans {n : ℕ} {h1 h2 h3 : List Note} (a : HExt n h1 h2)
    (b : HExt n h2 h3) : HExt n h1 h3 :=
  ⟨le_trans a.1 b.1, fun i hi => (b.2 i hi).trans (a.2 i hi)⟩

theorem nget_set_ne (h : List Note) (a i : ℕ) (v : Note) (hne : i ≠ a) :
    nget (h.set a v) i = nget h i := by
  unfold nget
  rw [List.getD, List.getD, List.get?_eq_getElem?, List.get?_eq_getElem?,
    List.getElem?_set_ne (fun hc => hne hc.symm)]

theorem HExt_set (n : ℕ) (h : List Note) (a : ℕ) (v : Note) (hna : n ≤ a) :
    HExt n h (h.set a v) :=
  ⟨by simp, fun i hi => nget_set_ne h a i v (by omega)⟩

theorem nget_append_left (h l : List Note) (i : ℕ) (hi : i < h.length) :
    nget (h ++ l) i = nget h i := by
  unfold nget
  rw [List.getD, List.getD, List.get?_eq_getElem?, List.get?_eq_getElem?,
    List.getElem?_append, if_pos hi]

theorem HExt_append (n : ℕ) (h l : List Note) (hn : n ≤ h.length) :
    HExt n h (h ++ l) :=
  ⟨by simp, fun i hi => nget_append_left h l i (by omega)⟩

theorem clipGroupLoopH_ext (n : ℕ) (g : List ℕ) :
    ∀ (h : List Note), (∀ a ∈ g, n ≤ a) → HExt n h (clipGroupLoopH h g) := by
  induction g with
  | nil => intro h _; exact HExt_refl n h
  | cons a t ih =>
      intro h hmem
      cases t with
      | nil => exact HExt_refl n h
      | cons b rest =>
          have hstep : HExt n h
              (if (nget h b).startSec < (nget h a).endSec
               then h.set a (clipNoteTo (nget h a) (nget h b).startSec)
               else h) := by
            by_cases hc : (nget h b).startSec < (nget h a).endSec
            · rw [if_pos hc]
              exact HExt_set n h a _ (hmem a (List.mem_cons_self a _))
            · rw [if_neg hc]
              exact HExt_refl n h
          refine HExt_trans hstep (ih _ ?_)
          intro x hx
          exact hmem x (List.mem_cons_of_mem a hx)

theorem clipGroupsH_ext (n : ℕ) (gs : List (List ℕ)) :
    ∀ (h : List Note), (∀ g ∈ gs, ∀ a ∈ g, n ≤ a) →
      HExt n h (clipGroupsH h gs) := by
  induction gs with
  | nil => intro h _; exact HExt_refl n h
  | cons g gs ih =>
      intro h hmem
      refine HExt_trans
        (clipGroupLoopH_ext n (sortByStartH h g) h ?_)
        (ih _ fun g2 hg2 => hmem g2 (List.mem_cons_of_mem g hg2))
      intro a ha
      exact hmem g (List.mem_cons_self g gs) a
        ((mem_sortByKey _ g a).mp ha)

theorem fixSameNoteOverlapsH_spec (n : ℕ) (h : List Note) (addrs : List ℕ)
    (hmem : ∀ a ∈ addrs, n ≤ a) :
    HExt n h (fixSameNoteOverlapsH h addrs).1 ∧
    (fixSameNoteOverlapsH h addrs).2.length ≤ addrs.length ∧
    (∀ a ∈ (fixSameNoteOverlapsH h addrs).2, n ≤ a) := by
  refine ⟨?_, List.length_filter_le _ _, ?_⟩
  · refine clipGroupsH_ext n _ h ?_
    intro g hg a ha
    rw [List.mem_map] at hg
    obtain ⟨p, _, rfl⟩ := hg
    exact hmem a (List.mem_filter.mp ha).1
  · intro a ha
    exact hmem a (List.mem_filter.mp ha).1

theorem diffLoopH_spec (n : ℕ) :
    ∀ (m : ℕ) (l : List ℕ) (i : ℕ) (h : List Note),
      l.length - i ≤ m → (∀ a ∈ l, n ≤ a) →
      HExt n h (diffLoopH h l i).1 ∧
      (diffLoopH h l i).2.length ≤ l.length ∧
      (∀ a ∈ (diffLoopH h l i).2, n ≤ a) := by
  intro m
  induction m with
  | zero =>
      intro l i h hm hmem
      have hstop : ¬ (i + 1 < l.length) := by omega
      rw [diffLoopH, dif_neg hstop]
      exact ⟨HExt_refl n h, le_refl _, hmem⟩
  | succ m ih =>
      intro l i h hm hmem
      by_cases hlt : i + 1 < l.length
      · rw [diffLoopH, dif_pos hlt]
        have hga : l.get ⟨i, by omega⟩ ∈ l := List.get_mem l i (by omega)
        have hna : n ≤ l.get ⟨i, by omega⟩ := hmem _ hga
        dsimp only
        split_ifs with hcond hdur
        · -- clip then drop: heap write + eraseIdx, i unchanged
          have hlen : (l.eraseIdx i).length = l.length - 1 := by
            rw [List.length_eraseIdx]
            simp only [if_pos (by omega : i < l.length)]
          have hr := ih (l.eraseIdx i) i
            (h.set (l.get ⟨i, by omega⟩)
              (clipNoteTo (nget h (l.get ⟨i, by omega⟩))
                (nget h (l.get ⟨i + 1, hlt⟩)).startSec))
            (by omega)
            (fun a ha => hmem a (List.mem_of_mem_eraseIdx ha))
          refine ⟨HExt_trans (HExt_set n h _ _ hna) hr.1, ?_, hr.2.2⟩
          omega
        · -- clip and keep: heap write, advance i
          have hr := ih l (i + 1)
            (h.set (l.get ⟨i, by omega⟩)
              (clipNoteTo (nget h (l.get ⟨i, by omega⟩))
                (nget h (l.get ⟨i + 1, hlt⟩)).startSec))
            (by omega) hmem
          exact ⟨HExt_trans (HExt_set n h _ _ hna) hr.1, hr.2.1, hr.2.2⟩
        · -- no overlap: advance i
          exact ih l (i + 1) h (by omega) hmem
      · rw [diffLoopH, dif_neg hlt]
        exact ⟨HExt_refl n h, le_refl _, hmem⟩

theorem fixDifferentNoteOverlapsH_spec (n : ℕ) (h : List Note)
    (addrs : List ℕ) (hmem : ∀ a ∈ addrs, n ≤ a) :
    HExt n h (fixDifferentNoteOverlapsH h addrs).1 ∧
    (fixDifferentNoteOverlapsH h addrs).2.length ≤ addrs.length ∧
    (∀ a ∈ (fixDifferentNoteOverlapsH h addrs).2, n ≤ a) := by
  have hs := diffLoopH_spec n (sortByStartH h addrs).length
    (sortByStartH h addrs) 0 h (by omega)
    (fun a ha => hmem a ((mem_sortByKey _ addrs a).mp ha))
  unfold fixDifferentNoteOverlapsH
  refine ⟨hs.1, ?_, hs.2.2⟩
  have := hs.2.1
  rw [sortByStartH, length_sortByKey] at this
  exact this

theorem fixChannelOverlapsH_spec (n : ℕ) (h : List Note) (addrs : List ℕ)
    (hn : n ≤ h.length) :
    HExt n h (fixChannelOverlapsH h addrs).1 ∧
    (fixChannelOverlapsH h addrs).2.length ≤ addrs.length ∧
    (∀ a ∈ (fixChannelOverlapsH h addrs).2, n ≤ a) := by
  unfold fixChannelOverlapsH
  by_cases hemp : addrs.isEmpty
  · rw [if_pos hemp]
    exact ⟨HExt_refl n h, by simp, by simp⟩
  · rw [if_neg hemp]
    dsimp only
    have hfreshmem : ∀ a ∈ List.range' h.length addrs.length, n ≤ a := by
      intro a ha
      have := List.mem_range'_1.mp ha
      omega
    have hsortmem : ∀ a ∈ sortByStartH (h ++ addrs.map (nget h))
        (List.range' h.length addrs.length), n ≤ a := by
      intro a ha
      exact hfreshmem a ((mem_sortByKey _ _ a).mp ha)
    have h1 := fixSameNoteOverlapsH_spec n (h ++ addrs.map (nget h))
      (sortByStartH (h ++ addrs.map (nget h))
        (List.range' h.length addrs.length)) hsortmem
    have h2 := fixDifferentNoteOverlapsH_spec n
      (fixSameNoteOverlapsH (h ++ addrs.map (nget h))
        (sortByStartH (h ++ addrs.map (nget h))
          (List.range' h.length addrs.length))).1
      (fixSameNoteOverlapsH (h ++ addrs.map (nget h))
        (sortByStartH (h ++ addrs.map (nget h))
          (List.range' h.length addrs.length))).2 h1.2.2
    refine ⟨HExt_trans (HExt_append n h _ hn) (HExt_trans h1.1 h2.1), ?_,
      h2.2.2⟩
    have hlen : (sortByStartH (h ++ addrs.map (nget h))
        (List.range' h.length addrs.length)).length = addrs.length := by
      rw [sortByStartH, length_sortByKey, List.length_range']
    omega

theorem processGroupsH_spec (b : Bool) (n : ℕ) :
    ∀ (gs : List (List ℕ)) (h : List Note) (acc : List ℕ),
      n ≤ h.length →
      HExt n h (processGroupsH b gs h acc).1 ∧
      (processGroupsH b gs h acc).2.length ≤
        acc.length + ((gs.map List.length).sum) := by
  intro gs
  induction gs with
  | nil =>
      intro h acc _
      exact ⟨HExt_refl n h, by simp [processGroupsH]⟩
  | cons g gs ih =>
      intro h acc hn
      rw [processGroupsH]
      split_ifs with hskip
      · have hr := ih h (acc ++ g) hn
        refine ⟨hr.1, ?_⟩
        have := hr.2
        simp only [List.length_append, List.map_cons, List.sum_cons] at this ⊢
        omega
      · dsimp only
        have hfc := fixChannelOverlapsH_spec n h (sortByStartH h g) hn
        have hn2 : n ≤ (fixChannelOverlapsH h (sortByStartH h g)).1.length :=
          le_trans hn hfc.1.1
        have hr := ih (fixChannelOverlapsH h (sortByStartH h g)).1
          (acc ++ (fixChannelOverlapsH h (sortByStartH h g)).2) hn2
        refine ⟨HExt_trans hfc.1 hr.1, ?_⟩
        have h1 := hr.2
        have h2 := hfc.2.1
        have h3 : (sortByStartH h g).length = g.length := by
          rw [sortByStartH, length_sortByKey]
        simp only [List.length_append, List.map_cons, List.sum_cons] at h1 ⊢
        omega

theorem processGroups_package (h : List Note) (addrs : List ℕ) (b : Bool)
    (gs : List (List ℕ))
    (hsum : ((gs.map List.length).sum) ≤ addrs.length) :
    (∀ i, i < h.length →
      nget (processGroupsH b gs (h ++ addrs.map (nget h)) []).1 i =
        nget h i) ∧
    (sortByStartH (processGroupsH b gs (h ++ addrs.map (nget h)) []).1
      (processGroupsH b gs (h ++ addrs.map (nget h)) []).2).length ≤
      addrs.length := by
  have hspec := processGroupsH_spec b h.length gs
    (h ++ addrs.map (nget h)) [] (by simp)
  constructor
  · intro i hi
    exact (HExt_trans (HExt_append h.length h _ (le_refl _)) hspec.1).2 i hi
  · rw [sortByStartH, length_sortByKey]
    have h2 := hspec.2
    simp only [List.length_nil, Nat.zero_add] at h2
    omega

/-- C7: `fix_multitrack_overlapping_notes` (heap model, both scoping
modes) never mutates any pre-existing note cell — every interval object of
the input list keeps all its field values — and the returned list of note
references is never longer than the input list. -/
theorem resolver_frame_and_length (h : List Note) (addrs : List ℕ)
    (fix_cross_track : Bool) :
    (∀ i, i < h.length →
      nget (fixMultitrackOverlappingNotesH h addrs fix_cross_track).1 i =
        nget h i) ∧
    (fixMultitrackOverlappingNotesH h addrs fix_cross_track).2.length ≤
      addrs.length := by
  unfold fixMultitrackOverlappingNotesH
  by_cases hemp : addrs.isEmpty
  · rw [if_pos hemp]
    refine ⟨fun i _ => rfl, ?_⟩
    simp
  · rw [if_neg hemp]
    cases fix_cross_track with
    | true =>
        dsimp only [Bool.not_true, if_pos]
        refine processGroups_package h addrs false _ ?_
        rw [if_pos rfl, List.map_map]
        have hp := firstOccKeys_partition
          (fun a => (nget (h ++ addrs.map (nget h)) a).channel)
          (List.range' h.length addrs.length)
        rw [List.length_range'] at hp
        exact le_of_eq hp
    | false =>
        dsimp only [Bool.not_false, if_neg]
        refine processGroups_package h addrs true _ ?_
        rw [if_neg (by simp), sum_map_length_flatMap]
        have hcongr : ∀ tg ∈ (firstOccKeys
            ((List.range' h.length addrs.length).map
              (fun a => (nget (h ++ addrs.map (nget h)) a).originalTrack))).map
            (fun tr => (List.range' h.length addrs.length).filter
              (fun a => decide
                ((nget (h ++ addrs.map (nget h)) a).originalTrack = tr))),
            ((((firstOccKeys (tg.map
                (fun a => (nget (h ++ addrs.map (nget h)) a).channel))).map
              (fun c => tg.filter (fun a => decide
                ((nget (h ++ addrs.map (nget h)) a).channel = c)))).map
              List.length).sum) = tg.length := by
          intro tg _
          rw [List.map_map]
          exact firstOccKeys_partition
            (fun a => (nget (h ++ addrs.map (nget h)) a).channel) tg
        rw [List.map_congr_left hcongr, List.map_map]
        have hp := firstOccKeys_partition
          (fun a => (nget (h ++ addrs.map (nget h)) a).originalTrack)
          (List.range' h.length addrs.length)
        rw [List.length_range'] at hp
        exact le_of_eq hp
